import Mathlib

/-!
Shallow embedding of the pdf-extraction repository: the structural
classifier of src/main.py (class AcademicBookMapper) and the chapter
locator of src/phraseFind2.py (find_chapters_with_details together with
the missing-chapter diagnostic of display_chapter_analysis).

Python regular expressions are translated into executable character-list
matchers that reproduce the greedy matching and backtracking behaviour of
the concrete patterns appearing in the code.  Character classes are
modelled over the ASCII range; the documents the program scans are ASCII
text, and no claim depends on non-ASCII characters.  Lines handed to the
line-level matchers come from splitting a page text on the newline
character, so they never contain a newline, which is the domain on which
the full-line anchors of the source patterns coincide with list equality.
-/

namespace PdfExtract

/-- ASCII whitespace, the characters matched by the regex whitespace class
in the source patterns. -/
def isSpaceC (c : Char) : Bool :=
  c == ' ' || c == '\t' || c == '\n' || c == '\r' || c == '\x0b' || c == '\x0c'

/-- ASCII decimal digit, the regex digit class. -/
def isDigitC (c : Char) : Bool := 48 ≤ c.toNat && c.toNat ≤ 57

/-- The roman-numeral character class [IVXLC] of the chapter pattern. -/
def isRomanC (c : Char) : Bool :=
  c == 'I' || c == 'V' || c == 'X' || c == 'L' || c == 'C'

/-- The character class [A-Z] of the appendix pattern. -/
def isUpperC (c : Char) : Bool := 65 ≤ c.toNat && c.toNat ≤ 90

/-- ASCII case folding, as applied by the IGNORECASE flag in the source. -/
def lowerAscii (c : Char) : Char :=
  if 65 ≤ c.toNat && c.toNat ≤ 90 then Char.ofNat (c.toNat + 32) else c

/-- Does the second list start with the first one (literal text match)? -/
def beginsWith : List Char → List Char → Bool
  | [], _ => true
  | _ :: _, [] => false
  | a :: as, b :: bs => a == b && beginsWith as bs

/-- Case-insensitive version of beginsWith. -/
def ciBeginsWith : List Char → List Char → Bool
  | [], _ => true
  | _ :: _, [] => false
  | a :: as, b :: bs => lowerAscii a == lowerAscii b && ciBeginsWith as bs

/-- Case-insensitive equality of two character lists: the semantics of a
fully anchored alternation of literal words under IGNORECASE, on inputs
that contain no newline. -/
def ciEqList : List Char → List Char → Bool
  | [], [] => true
  | a :: as, b :: bs => lowerAscii a == lowerAscii b && ciEqList as bs
  | _, _ => false

/-- Does the pattern occur as a contiguous subsequence of the list?  Used
for the Python substring test on word text in the locator. -/
def containsSeq (pat : List Char) : List Char → Bool
  | [] => beginsWith pat []
  | c :: cs => beginsWith pat (c :: cs) || containsSeq pat cs

/-- Python str.strip(): remove leading and trailing whitespace. -/
def pyStrip (l : List Char) : List Char :=
  ((l.dropWhile isSpaceC).reverse.dropWhile isSpaceC).reverse

/-- Python str.split on a newline: n separators produce n+1 pieces, an
empty input produces one empty piece. -/
def pySplitNl : List Char → List (List Char)
  | [] => [[]]
  | c :: cs =>
    if c = '\n' then [] :: pySplitNl cs
    else
      match pySplitNl cs with
      | [] => [[c]]
      | h :: t => (c :: h) :: t

/-- The greedy tail of the heading and caption patterns: at least minS
whitespace characters (the whitespace class includes the newline), then a
nonempty dot-plus group whose dot does not match a newline.  The
whitespace run is maximal; when nothing is left for the group the engine
backtracks into the run, so the group then becomes the last character of
the run that is not a newline, provided enough whitespace remains.
Returns the captured group and the unconsumed remainder of the input. -/
def titleAfterSpaces (minS : Nat) (rest : List Char) : Option (List Char × List Char) :=
  let w := rest.takeWhile isSpaceC
  let r := rest.dropWhile isSpaceC
  if w.length < minS then none
  else if r.length = 0 then
    let t := (w.reverse.takeWhile (fun c => c == '\n')).length
    if t + 1 + minS ≤ w.length then
      some ([w.getD (w.length - 1 - t) ' '], rest.drop (w.length - t))
    else none
  else
    some (r.takeWhile (fun c => !(c == '\n')), r.dropWhile (fun c => !(c == '\n')))

/-- src/main.py line 38, the anchored chapter pattern: literal Chapter or
CHAPTER, one or more whitespace characters, a group of digits or of roman
numerals, a dot or colon, optional whitespace, then a nonempty title
group.  Returns the number group and the raw title group. -/
def chapterMatch (l : List Char) : Option (List Char × List Char) :=
  let afterKw : Option (List Char) :=
    if beginsWith ("Chapter".toList) l then some (l.drop 7)
    else if beginsWith ("CHAPTER".toList) l then some (l.drop 7)
    else none
  match afterKw with
  | none => none
  | some l1 =>
    let w := l1.takeWhile isSpaceC
    if w.length = 0 then none
    else
      let l2 := l1.dropWhile isSpaceC
      let d := l2.takeWhile isDigitC
      let numAndRest : Option (List Char × List Char) :=
        if d.length ≠ 0 then some (d, l2.drop d.length)
        else
          let r := l2.takeWhile isRomanC
          if r.length ≠ 0 then some (r, l2.drop r.length) else none
      match numAndRest with
      | none => none
      | some (num, l3) =>
        match l3 with
        | c :: l4 =>
          if c = '.' ∨ c = ':' then
            match titleAfterSpaces 0 l4 with
            | some (title, _) => some (num, title)
            | none => none
          else none
        | [] => none

/-- src/main.py line 51, the anchored section pattern: one or more digits,
a literal dot, zero or more further digits as a single greedy run, one or
more whitespace characters, then a nonempty title group.  Note that the
grouping in the source forces exactly one dot: the starred group contains
no dot of its own.  Returns the number group and the raw title group. -/
def sectionMatch (l : List Char) : Option (List Char × List Char) :=
  let d1 := l.takeWhile isDigitC
  if d1.length = 0 then none
  else
    match l.drop d1.length with
    | '.' :: l2 =>
      let d2 := l2.takeWhile isDigitC
      match titleAfterSpaces 1 (l2.drop d2.length) with
      | some (title, _) => some (d1 ++ '.' :: d2, title)
      | none => none
    | _ => none

/-- src/main.py line 67: the line is, case-insensitively, exactly
References or exactly Bibliography. -/
def refMatch (l : List Char) : Bool :=
  ciEqList l ("References".toList) || ciEqList l ("Bibliography".toList)

/-- src/main.py line 75, the anchored appendix pattern: literal Appendix,
one or more whitespace characters, a single uppercase letter, a colon,
optional whitespace, then a nonempty title group. -/
def appendixMatch (l : List Char) : Option (Char × List Char) :=
  if beginsWith ("Appendix".toList) l then
    let l1 := l.drop 8
    let w := l1.takeWhile isSpaceC
    if w.length = 0 then none
    else
      match l1.dropWhile isSpaceC with
      | c :: ':' :: l2 =>
        if isUpperC c then
          match titleAfterSpaces 0 l2 with
          | some (title, _) => some (c, title)
          | none => none
        else none
      | _ => none
  else none

structure SectionRec where
  number : String
  title : String
  page : Nat
  level : Nat
deriving DecidableEq, Repr

structure ChapterRec where
  number : String
  title : String
  page : Nat
  sections : List SectionRec
deriving DecidableEq, Repr

structure RefRec where
  title : String
  page : Nat
deriving DecidableEq, Repr

structure AppendixRec where
  letter : Char
  title : String
  page : Nat
deriving DecidableEq, Repr

structure CaptionRec where
  number : String
  caption : String
  page : Nat
deriving DecidableEq, Repr

structure EquationRec where
  number : String
  page : Nat
deriving DecidableEq, Repr

/-- The mutable state of an AcademicBookMapper instance.  The Python
current_chapter dict is aliased into structure.chapters and mutated in
place, so here the chapter list is kept as the already finished chapters
plus the chapter currently receiving sections. -/
structure MapperState where
  finished : List ChapterRec
  current : Option ChapterRec
  sections : List SectionRec
  references : List RefRec
  appendices : List AppendixRec
  figures : List CaptionRec
  tables : List CaptionRec
  equations : List EquationRec
deriving DecidableEq, Repr

/-- The state built by AcademicBookMapper.init: empty lists, no current
chapter. -/
def initState : MapperState := ⟨[], none, [], [], [], [], [], []⟩

/-- The Python structure.chapters list: finished chapters followed by the
chapter currently being extended. -/
def chaptersOf (st : MapperState) : List ChapterRec :=
  st.finished ++ st.current.toList

/-- len(number.split(dot)) - 1, which equals the number of dots. -/
def levelOf (num : List Char) : Nat := num.count '.'

/-- The section records a single line contributes (zero or one). -/
def lineSecs (page : Nat) (l : List Char) : List SectionRec :=
  match sectionMatch l with
  | some (num, title) => [⟨String.mk num, String.mk (pyStrip title), page, levelOf num⟩]
  | none => []

/-- One iteration of the line loop of _analyze_page_structure: the four
line matchers in their priority order, first match wins. -/
def processLine (st : MapperState) (page : Nat) (l : List Char) : MapperState :=
  match chapterMatch l with
  | some (num, title) =>
    { st with finished := st.finished ++ st.current.toList,
              current := some ⟨String.mk num, String.mk (pyStrip title), page, []⟩ }
  | none =>
    match sectionMatch l with
    | some (num, title) =>
      let sec : SectionRec := ⟨String.mk num, String.mk (pyStrip title), page, levelOf num⟩
      { st with current := st.current.map (fun ch => { ch with sections := ch.sections ++ [sec] }),
                sections := st.sections ++ [sec] }
    | none =>
      if refMatch l then
        { st with references := st.references ++ [⟨String.mk (pyStrip l), page⟩] }
      else
        match appendixMatch l with
        | some (c, title) =>
          { st with appendices := st.appendices ++ [⟨c, String.mk (pyStrip title), page⟩] }
        | none => st

/-- The line loop of _analyze_page_structure over a list of lines. -/
def runLines (st : MapperState) (page : Nat) (lines : List (List Char)) : MapperState :=
  lines.foldl (fun s l => processLine s page l) st

/-- _analyze_page_structure: split the page text on newlines and run the
line loop. -/
def analyzePageStructure (st : MapperState) (page : Nat) (text : List Char) : MapperState :=
  runLines st page (pySplitNl text)

/-- Fallback branch of the caption number: the engine drops the optional
dot of the number group, the following digit run becomes empty, and the
dot itself is consumed as the separator; the caption group then starts
right after that dot. -/
def shortCaption (d1 : List Char) (l4 : List Char) : Option (List Char × List Char × List Char) :=
  match titleAfterSpaces 0 l4 with
  | some (cap, rest) => some (d1, cap, rest)
  | none => none

/-- One attempt of the unanchored figure or table caption pattern of
src/main.py lines 89 and 99 at the head of the input: the keyword, one or
more whitespace characters, a number group of digits with at most one
embedded dot, a dot or colon separator, optional whitespace, then a
nonempty caption group ending before a newline.  Returns the number
group, the caption group and the unconsumed remainder. -/
def tryCaption (kw : List Char) (l : List Char) : Option (List Char × List Char × List Char) :=
  if beginsWith kw l then
    let l1 := l.drop kw.length
    let w := l1.takeWhile isSpaceC
    if w.length = 0 then none
    else
      let l2 := l1.dropWhile isSpaceC
      let d1 := l2.takeWhile isDigitC
      if d1.length = 0 then none
      else
        match l2.drop d1.length with
        | '.' :: l4 =>
          let d2 := l4.takeWhile isDigitC
          match l4.drop d2.length with
          | c :: l6 =>
            if c = '.' ∨ c = ':' then
              match titleAfterSpaces 0 l6 with
              | some (cap, rest) => some (d1 ++ '.' :: d2, cap, rest)
              | none => shortCaption d1 l4
            else shortCaption d1 l4
          | [] => shortCaption d1 l4
        | ':' :: l4 => shortCaption d1 l4
        | _ => none
  else none

/-- Fuel-indexed scan of the caption pattern over the page text, emitting
non-overlapping matches from left to right as finditer does.  The fuel is
an upper bound on the number of characters still to be inspected. -/
def scanCapF (kw : List Char) : Nat → List Char → List (List Char × List Char)
  | 0, _ => []
  | _ + 1, [] => []
  | fuel + 1, c :: cs =>
    match tryCaption kw (c :: cs) with
    | some (num, cap, rest) => (num, cap) :: scanCapF kw fuel rest
    | none => scanCapF kw fuel cs

/-- finditer of the caption pattern over a page text. -/
def scanCap (kw : List Char) (l : List Char) : List (List Char × List Char) :=
  scanCapF kw l.length l

/-- Closing part of the equation pattern: optional whitespace then a
closing parenthesis.  Returns the number group and the remainder. -/
def eqClose (num : List Char) (m : List Char) : Option (List Char × List Char) :=
  match m.dropWhile isSpaceC with
  | ')' :: r => some (num, r)
  | _ => none

/-- Number group of the equation pattern, digits with at most one embedded
dot, followed by the closing part.  When the continuation after the full
number fails there is no successful backtracking alternative, because a
shortened digit run puts a digit where the closing parenthesis is
expected, and dropping the optional dot puts the dot there. -/
def eqNumPart (m2 : List Char) : Option (List Char × List Char) :=
  let d1 := m2.takeWhile isDigitC
  if d1.length = 0 then none
  else
    match m2.drop d1.length with
    | '.' :: m4 =>
      let d2 := m4.takeWhile isDigitC
      eqClose (d1 ++ '.' :: d2) (m4.drop d2.length)
    | m3 => eqClose d1 m3

/-- One attempt of the unanchored equation pattern of src/main.py line 109
at the head of the input: an opening parenthesis, optional whitespace, an
optional eq or equation word (tried in that order, case-insensitively),
optional whitespace, the number group, optional whitespace, a closing
parenthesis. -/
def tryEquation (l : List Char) : Option (List Char × List Char) :=
  match l with
  | '(' :: l1 =>
    let l2 := l1.dropWhile isSpaceC
    match (if ciBeginsWith ("eq".toList) l2 then
             eqNumPart ((l2.drop 2).dropWhile isSpaceC) else none) with
    | some r => some r
    | none =>
      match (if ciBeginsWith ("equation".toList) l2 then
               eqNumPart ((l2.drop 8).dropWhile isSpaceC) else none) with
      | some r => some r
      | none => eqNumPart l2
  | _ => none

/-- Fuel-indexed scan of the equation pattern over the page text. -/
def scanEqF : Nat → List Char → List (List Char)
  | 0, _ => []
  | _ + 1, [] => []
  | fuel + 1, c :: cs =>
    match tryEquation (c :: cs) with
    | some (num, rest) => num :: scanEqF fuel rest
    | none => scanEqF fuel cs

/-- finditer of the equation pattern over a page text. -/
def scanEq (l : List Char) : List (List Char) := scanEqF l.length l

/-- Figure records contributed by one page. -/
def detectFigures (page : Nat) (text : List Char) : List CaptionRec :=
  (scanCap ("Figure".toList) text).map
    (fun p => ⟨String.mk p.1, String.mk (pyStrip p.2), page⟩)

/-- Table records contributed by one page. -/
def detectTables (page : Nat) (text : List Char) : List CaptionRec :=
  (scanCap ("Table".toList) text).map
    (fun p => ⟨String.mk p.1, String.mk (pyStrip p.2), page⟩)

/-- Equation records contributed by one page. -/
def detectEquations (page : Nat) (text : List Char) : List EquationRec :=
  (scanEq text).map (fun n => ⟨String.mk n, page⟩)

/-- _detect_figures_tables: whole-page scans, independent of the line
matchers. -/
def detectFiguresTables (st : MapperState) (page : Nat) (text : List Char) : MapperState :=
  { st with figures := st.figures ++ detectFigures page text,
            tables := st.tables ++ detectTables page text,
            equations := st.equations ++ detectEquations page text }

/-- The per-page body of analyze: line-structure analysis followed by the
whole-page caption and equation scans over the same extracted text. -/
def processPage (st : MapperState) (page : Nat) (text : List Char) : MapperState :=
  detectFiguresTables (analyzePageStructure st page text) page text

/-- One iteration of the page loop of analyze: the truthiness guard of the
source skips a page whose extraction yields no string or an empty one. -/
def analyzeStep (st : MapperState) (page : Nat) (t : Option String) : MapperState :=
  match t with
  | none => st
  | some s => if s = "" then st else processPage st page s.toList

/-- The page loop of analyze, pages numbered from one. -/
def runPages : MapperState → Nat → List (Option String) → MapperState
  | st, _, [] => st
  | st, n, t :: ps => runPages (analyzeStep st n t) (n + 1) ps

structure BookSummary where
  totalChapters : Nat
  totalFigures : Nat
  totalTables : Nat
  totalEquations : Nat
deriving DecidableEq, Repr

structure BookMap where
  summary : BookSummary
  chapters : List ChapterRec
  figures : List CaptionRec
  tables : List CaptionRec
  equations : List EquationRec
  references : List RefRec
  appendices : List AppendixRec
deriving DecidableEq, Repr

/-- _generate_book_map: scalar counts plus the full structure. -/
def generateBookMap (st : MapperState) : BookMap :=
  ⟨⟨(chaptersOf st).length, st.figures.length, st.tables.length, st.equations.length⟩,
   chaptersOf st, st.figures, st.tables, st.equations, st.references, st.appendices⟩

/-- map_academic_book composed with analyze on a fresh instance. -/
def analyzeAll (pages : List (Option String)) : BookMap :=
  generateBookMap (runPages initState 1 pages)

/-- A word with font metadata, as returned by the extraction collaborator
in the locator.  No arithmetic is performed on sizes; they are carried as
rationals. -/
structure Word where
  text : String
  size : Rat
deriving DecidableEq

/-- One page as seen by find_chapters_with_details: the extracted text,
which the collaborator may fail to provide, and the word metadata. -/
structure LocPage where
  text : Option String
  words : List Word
deriving DecidableEq

/-- One emitted locator record: chapter number, zero-based page index,
font size when available, context window, matched literal text. -/
structure LocRec where
  num : Nat
  page : Nat
  fontSize : Option Rat
  context : String
  matched : String
deriving DecidableEq

/-- The exception raised when finditer is applied to a missing text. -/
inductive LocError where
  | typeError
deriving DecidableEq, Repr

/-- Python int on a string of decimal digits. -/
def natOfDigits (l : List Char) : Nat :=
  l.foldl (fun a c => 10 * a + (c.toNat - 48)) 0

/-- One attempt of the locator pattern at the head of the input: literal
Chapter plus space, one or more digits, then a colon and exactly one
space.  Returns the digit group. -/
def locTry (l : List Char) : Option (List Char) :=
  if beginsWith ("Chapter ".toList) l then
    let d := (l.drop 8).takeWhile isDigitC
    if d.length = 0 then none
    else if beginsWith (":".toList ++ " ".toList) ((l.drop 8).drop d.length) then some d
    else none
  else none

/-- Fuel-indexed scan of the locator pattern, tracking the match start
position for the context window. -/
def locScanF : Nat → List Char → Nat → List (Nat × List Char)
  | 0, _, _ => []
  | _ + 1, [], _ => []
  | fuel + 1, c :: cs, pos =>
    match locTry (c :: cs) with
    | some d => (pos, d) :: locScanF fuel ((c :: cs).drop (10 + d.length)) (pos + 10 + d.length)
    | none => locScanF fuel cs (pos + 1)

/-- finditer of the locator pattern over a page text, with positions. -/
def locScan (l : List Char) : List (Nat × List Char) := locScanF l.length l 0

/-- Replace newlines by spaces, as the context post-processing does. -/
def replNl (l : List Char) : List Char := l.map (fun c => if c = '\n' then ' ' else c)

/-- Thirty characters of context on each side of a match, clipped at the
page-text boundaries, newlines collapsed, then stripped. -/
def mkContext (text : List Char) (s e : Nat) : String :=
  let a := s - 30
  let b := min text.length (e + 30)
  String.mk (pyStrip (replNl ((text.drop a).take (b - a))))

/-- re.search for a digit run inside the matched text, converted to int:
skip to the first digit, take the maximal digit run. -/
def searchNum (matched : List Char) : Nat :=
  natOfDigits ((matched.dropWhile (fun c => !(isDigitC c))).takeWhile isDigitC)

/-- First word whose text contains the word Chapter, if any, gives the
font size. -/
def fontOf (ws : List Word) : Option Rat :=
  (ws.find? (fun w => containsSeq ("Chapter".toList) w.text.toList)).map (fun w => w.size)

/-- Records contributed by one page of the locator: each pattern match
whose extracted number lies in the range one to twenty-five, with context
window and font size. -/
def pageRecs (t : String) (pageIdx : Nat) (ws : List Word) : List LocRec :=
  (locScan t.toList).filterMap (fun sd =>
    let matched := "Chapter ".toList ++ sd.2 ++ (":".toList ++ " ".toList)
    let num := searchNum matched
    if 1 ≤ num ∧ num ≤ 25 then
      some ⟨num, pageIdx, fontOf ws,
            mkContext t.toList sd.1 (sd.1 + matched.length), String.mk matched⟩
    else none)

/-- Insert a record after every already placed record whose number does
not exceed it: one step of the stable ascending sort by chapter number
that Python list.sort with a key performs. -/
def insertByNum (a : LocRec) : List LocRec → List LocRec
  | [] => [a]
  | b :: l => if b.num ≤ a.num then b :: insertByNum a l else a :: b :: l

/-- The stable ascending sort by chapter number. -/
def stableSortByNum (l : List LocRec) : List LocRec :=
  l.foldl (fun acc a => insertByNum a acc) []

/-- The page loop of find_chapters_with_details: finditer applied to a
missing text raises a TypeError, which propagates and discards everything
scanned so far. -/
def collectPages : List LocPage → Nat → Except LocError (List LocRec)
  | [], _ => .ok []
  | p :: ps, i =>
    match p.text with
    | none => .error .typeError
    | some t =>
      match collectPages ps (i + 1) with
      | .ok rest => .ok (pageRecs t i p.words ++ rest)
      | .error e => .error e

/-- find_chapters_with_details: scan all pages, then sort the results by
chapter number with the stable sort. -/
def findChapters (pages : List LocPage) : Except LocError (List LocRec) :=
  (collectPages pages 0).map stableSortByNum

/-- The set of found chapter numbers in display_chapter_analysis. -/
def foundChapters (results : List LocRec) : Finset ℕ :=
  (results.map (fun r => r.num)).toFinset

/-- The missing-chapters diagnostic: the sorted set difference between the
range from one to the maximal found number and the found set.  The source
only prints it when the found set is nonempty; the empty case is a
placeholder. -/
def missingChapters (results : List LocRec) : List Nat :=
  let found := foundChapters results
  if h : found.Nonempty then
    ((Finset.Icc 1 (found.max' h)) \ found).sort (· ≤ ·)
  else []

/-! Helper lemmas about characters and lists. -/

lemma isSpaceC_cases {c : Char} (h : isSpaceC c = true) :
    c = ' ' ∨ c = '\t' ∨ c = '\n' ∨ c = '\r' ∨ c = '\x0b' ∨ c = '\x0c' := by
  simp [isSpaceC, Bool.or_eq_true, beq_iff_eq] at h
  tauto

lemma isRomanC_cases {c : Char} (h : isRomanC c = true) :
    c = 'I' ∨ c = 'V' ∨ c = 'X' ∨ c = 'L' ∨ c = 'C' := by
  simp [isRomanC, Bool.or_eq_true, beq_iff_eq] at h
  tauto

lemma not_space_of_digit {c : Char} (h : isDigitC c = true) : isSpaceC c = false := by
  cases hs : isSpaceC c with
  | false => rfl
  | true =>
    rcases isSpaceC_cases hs with h' | h' | h' | h' | h' | h' <;>
      (subst h'; exact absurd h (by decide))

lemma not_space_of_roman {c : Char} (h : isRomanC c = true) : isSpaceC c = false := by
  rcases isRomanC_cases h with h' | h' | h' | h' | h' <;> (subst h'; decide)

lemma not_digit_of_roman {c : Char} (h : isRomanC c = true) : isDigitC c = false := by
  rcases isRomanC_cases h with h' | h' | h' | h' | h' <;> (subst h'; decide)

lemma not_newline_of_not_space {c : Char} (h : isSpaceC c = false) : (c == '\n') = false := by
  cases he : (c == '\n') with
  | false => rfl
  | true =>
    rw [beq_iff_eq] at he
    subst he
    exact absurd h (by decide)

lemma takeWhile_all {p : Char → Bool} : ∀ {xs : List Char},
    (∀ c ∈ xs, p c = true) → xs.takeWhile p = xs := by
  intro xs
  induction xs with
  | nil => intro _; rfl
  | cons a as ih =>
    intro h
    rw [List.takeWhile_cons, if_pos (h a (List.mem_cons_self a as))]
    rw [ih (fun c hc => h c (List.mem_cons_of_mem a hc))]

lemma takeWhile_append_not {p : Char → Bool} {xs : List Char} {y : Char} (ys : List Char)
    (hxs : ∀ c ∈ xs, p c = true) (hy : p y = false) :
    (xs ++ y :: ys).takeWhile p = xs := by
  induction xs with
  | nil => simpa [List.takeWhile_cons] using hy
  | cons a as ih =>
    rw [List.cons_append, List.takeWhile_cons, if_pos (hxs a (List.mem_cons_self a as))]
    rw [ih (fun c hc => hxs c (List.mem_cons_of_mem a hc))]

lemma dropWhile_append_not {p : Char → Bool} {xs : List Char} {y : Char} (ys : List Char)
    (hxs : ∀ c ∈ xs, p c = true) (hy : p y = false) :
    (xs ++ y :: ys).dropWhile p = y :: ys := by
  induction xs with
  | nil => rw [List.nil_append, List.dropWhile_cons, if_neg (by simp [hy])]
  | cons a as ih =>
    rw [List.cons_append, List.dropWhile_cons, if_pos (hxs a (List.mem_cons_self a as))]
    exact ih (fun c hc => hxs c (List.mem_cons_of_mem a hc))

lemma dropWhile_head_false {p : Char → Bool} : ∀ (l : List Char) {x : Char} {xs : List Char},
    l.dropWhile p = x :: xs → p x = false := by
  intro l
  induction l with
  | nil => intro x xs h; simp at h
  | cons a as ih =>
    intro x xs h
    rw [List.dropWhile_cons] at h
    by_cases hp : p a = true
    · exact ih (by rwa [if_pos hp] at h)
    · rw [if_neg hp] at h
      cases h
      exact Bool.eq_false_iff.mpr hp

lemma length_dropWhile_le' {p : Char → Bool} (l : List Char) :
    (l.dropWhile p).length ≤ l.length := by
  induction l with
  | nil => simp
  | cons a as ih =>
    rw [List.dropWhile_cons]
    by_cases hp : p a = true
    · rw [if_pos hp]; exact Nat.le_succ_of_le ih
    · rw [if_neg hp]

lemma length_takeWhile_le' {p : Char → Bool} (l : List Char) :
    (l.takeWhile p).length ≤ l.length := by
  induction l with
  | nil => simp
  | cons a as ih =>
    rw [List.takeWhile_cons]
    by_cases hp : p a = true
    · rw [if_pos hp]; simpa using ih
    · rw [if_neg hp]; simp

lemma length_take_drop {p : Char → Bool} (l : List Char) :
    (l.takeWhile p).length + (l.dropWhile p).length = l.length := by
  conv_rhs => rw [← List.takeWhile_append_dropWhile p l]
  rw [List.length_append]

lemma beginsWith_append_self : ∀ (xs ys : List Char), beginsWith xs (xs ++ ys) = true := by
  intro xs ys
  induction xs with
  | nil => rfl
  | cons a as ih => simpa [beginsWith] using ih

lemma dropWhile_all {p : Char → Bool} : ∀ {xs : List Char},
    (∀ c ∈ xs, p c = true) → xs.dropWhile p = [] := by
  intro xs
  induction xs with
  | nil => intro _; rfl
  | cons a as ih =>
    intro h
    rw [List.dropWhile_cons, if_pos (h a (List.mem_cons_self a as))]
    exact ih (fun c hc => h c (List.mem_cons_of_mem a hc))

/-- The greedy-tail helper on a well-shaped input: a whitespace run, then
a title that starts with a non-space character and contains no newline,
then either nothing or a remainder that starts with a newline.  The title
group is exactly the title and the remainder is untouched. -/
lemma titleAfterSpaces_spec (m : Nat) (ws : List Char) (tc : Char) (t' u : List Char)
    (hm : m ≤ ws.length) (hws : ∀ c ∈ ws, isSpaceC c = true)
    (htc : isSpaceC tc = false) (hnl : ∀ c ∈ tc :: t', (c == '\n') = false)
    (hu : u = [] ∨ ∃ u', u = '\n' :: u') :
    titleAfterSpaces m (ws ++ tc :: (t' ++ u)) = some (tc :: t', u) := by
  have h1 : (ws ++ tc :: (t' ++ u)).takeWhile isSpaceC = ws :=
    takeWhile_append_not _ hws htc
  have h2 : (ws ++ tc :: (t' ++ u)).dropWhile isSpaceC = tc :: (t' ++ u) :=
    dropWhile_append_not _ hws htc
  have hq : ∀ c ∈ tc :: t', (!(c == '\n')) = true := by
    intro c hc; rw [hnl c hc]; rfl
  have h3 : (tc :: (t' ++ u)).takeWhile (fun c => !(c == '\n')) = tc :: t' := by
    rcases hu with hu | ⟨u', hu⟩
    · subst hu; rw [List.append_nil]; exact takeWhile_all hq
    · subst hu
      have := @takeWhile_append_not (fun c => !(c == '\n')) (tc :: t') '\n' u' hq (by simp)
      simpa using this
  have h4 : (tc :: (t' ++ u)).dropWhile (fun c => !(c == '\n')) = u := by
    rcases hu with hu | ⟨u', hu⟩
    · subst hu; rw [List.append_nil]; exact dropWhile_all hq
    · subst hu
      have := @dropWhile_append_not (fun c => !(c == '\n')) (tc :: t') '\n' u' hq (by simp)
      simpa using this
  simp only [titleAfterSpaces, h1, h2, h3, h4]
  rw [if_neg (by omega), if_neg (by simp)]

/-- A successful greedy tail consumes at least one character. -/
lemma titleAfterSpaces_length {m : Nat} {rest g r : List Char}
    (h : titleAfterSpaces m rest = some (g, r)) : r.length < rest.length := by
  simp only [titleAfterSpaces] at h
  split at h
  · exact absurd h (by simp)
  · split at h
    · split at h
      · simp only [Option.some.injEq, Prod.mk.injEq] at h
        rename_i hcond
        have hw : (rest.takeWhile isSpaceC).length ≤ rest.length := length_takeWhile_le' rest
        rw [← h.2, List.length_drop]
        omega
      · exact absurd h (by simp)
    · rename_i hm0 hr0
      simp only [Option.some.injEq, Prod.mk.injEq] at h
      have hx : ∃ x xs, rest.dropWhile isSpaceC = x :: xs := by
        cases hd : rest.dropWhile isSpaceC with
        | nil => rw [hd] at hr0; simp at hr0
        | cons x xs => exact ⟨x, xs, rfl⟩
      obtain ⟨x, xs, hd⟩ := hx
      have hxs : isSpaceC x = false := dropWhile_head_false rest hd
      have hq : (fun c => !(c == '\n')) x = true := by
        simp only [not_newline_of_not_space hxs]; rfl
      have hlen : (rest.dropWhile isSpaceC).length ≤ rest.length := length_dropWhile_le' rest
      rw [hd] at h hlen
      rw [← h.2, List.dropWhile_cons, if_pos hq]
      have := length_dropWhile_le' (p := fun c => !(c == '\n')) xs
      simp only [List.length_cons] at hlen
      omega

lemma shortCaption_length {d1 l4 n cap rest : List Char}
    (h : shortCaption d1 l4 = some (n, cap, rest)) : rest.length < l4.length := by
  simp only [shortCaption] at h
  split at h
  · rename_i cap' rest' hts
    simp only [Option.some.injEq, Prod.mk.injEq] at h
    rw [← h.2.2]
    exact titleAfterSpaces_length hts
  · exact absurd h (by simp)

/-- A successful caption match consumes at least one character. -/
lemma tryCaption_length {kw l n cap rest : List Char}
    (h : tryCaption kw l = some (n, cap, rest)) : rest.length < l.length := by
  simp only [tryCaption] at h
  split at h
  case isFalse => exact absurd h (by simp)
  case isTrue hbeg =>
  split at h
  case isTrue => exact absurd h (by simp)
  case isFalse hw =>
  split at h
  case isTrue => exact absurd h (by simp)
  case isFalse hd1 =>
  have hl1 : (l.drop kw.length).length ≤ l.length := by
    rw [List.length_drop]; omega
  have hl2a := length_take_drop (p := isSpaceC) (l.drop kw.length)
  have hl2b : ((l.drop kw.length).takeWhile isSpaceC).length ≠ 0 := hw
  set l2 := (l.drop kw.length).dropWhile isSpaceC with hl2def
  have hl2 : l2.length < l.length := by omega
  split at h
  · rename_i l4 heq4
    have hlen4 : l4.length < l2.length := by
      have := congrArg List.length heq4
      rw [List.length_drop] at this
      simp only [List.length_cons] at this
      omega
    split at h
    · rename_i c l6 heq6
      have hlen6 : l6.length < l4.length := by
        have := congrArg List.length heq6
        rw [List.length_drop] at this
        simp only [List.length_cons] at this
        omega
      split at h
      · split at h
        · rename_i cap' rest' hts
          simp only [Option.some.injEq, Prod.mk.injEq] at h
          rw [← h.2.2]
          have := titleAfterSpaces_length hts
          omega
        · have := shortCaption_length h
          omega
      · have := shortCaption_length h
        omega
    · have := shortCaption_length h
      omega
  · rename_i l4 heq4
    have hlen4 : l4.length < l2.length := by
      have := congrArg List.length heq4
      rw [List.length_drop] at this
      simp only [List.length_cons] at this
      omega
    have := shortCaption_length h
    omega
  · exact absurd h (by simp)

lemma tryCaption_not_begins {kw l : List Char} (h : beginsWith kw l = false) :
    tryCaption kw l = none := by
  simp [tryCaption, h]

/-- The result of the fuel-indexed caption scan does not depend on the
fuel, as long as the fuel dominates the input length. -/
lemma scanCapF_fuel (kw : List Char) : ∀ (f1 : Nat) (f2 : Nat) (l : List Char),
    l.length ≤ f1 → l.length ≤ f2 → scanCapF kw f1 l = scanCapF kw f2 l := by
  intro f1
  induction f1 with
  | zero =>
    intro f2 l h1 _
    have : l = [] := List.eq_nil_of_length_eq_zero (Nat.le_zero.mp h1)
    subst this
    cases f2 <;> rfl
  | succ f1 ih =>
    intro f2 l h1 h2
    cases l with
    | nil => cases f2 <;> rfl
    | cons c cs =>
      simp only [List.length_cons] at h1 h2
      cases f2 with
      | zero => omega
      | succ f2 =>
        simp only [scanCapF]
        cases htry : tryCaption kw (c :: cs) with
        | some v =>
          obtain ⟨num, cap, rest⟩ := v
          have hr : rest.length < cs.length + 1 := tryCaption_length htry
          dsimp only
          rw [ih f2 rest (by omega) (by omega)]
        | none =>
          dsimp only
          exact ih f2 cs (by omega) (by omega)

lemma scanCap_cons_some {kw : List Char} {c : Char} {cs num cap rest : List Char}
    (h : tryCaption kw (c :: cs) = some (num, cap, rest)) :
    scanCap kw (c :: cs) = (num, cap) :: scanCap kw rest := by
  have hr : rest.length < cs.length + 1 := tryCaption_length h
  simp only [scanCap, List.length_cons, scanCapF, h]
  rw [scanCapF_fuel kw cs.length rest.length rest (by omega) (by omega)]

lemma scanCap_cons_none {kw : List Char} {c : Char} {cs : List Char}
    (h : tryCaption kw (c :: cs) = none) :
    scanCap kw (c :: cs) = scanCap kw cs := by
  simp only [scanCap, List.length_cons, scanCapF, h]

/-- Positions where no caption keyword occurrence starts are skipped by
the scan. -/
lemma scanCap_skip (kw : List Char) : ∀ (a r : List Char),
    (∀ n, n < a.length → beginsWith kw (a.drop n ++ r) = false) →
    scanCap kw (a ++ r) = scanCap kw r := by
  intro a
  induction a with
  | nil => intro r _; rfl
  | cons c cs ih =>
    intro r h
    have h0 : beginsWith kw (c :: (cs ++ r)) = false := by
      have := h 0 (by simp)
      simpa using this
    rw [List.cons_append, scanCap_cons_none (tryCaption_not_begins h0)]
    exact ih r (fun n hn => by
      have := h (n + 1) (by simpa using Nat.succ_lt_succ hn)
      simpa using this)

lemma scanCap_none_all (kw : List Char) (b : List Char)
    (h : ∀ n, n < b.length → beginsWith kw (b.drop n) = false) :
    scanCap kw b = [] := by
  have := scanCap_skip kw b [] (fun n hn => by simpa using h n hn)
  simpa using this

/-- A caption attempt succeeds on a well-shaped occurrence: the keyword,
a whitespace run, digits, a dot, more digits, a dot-or-colon separator, a
whitespace run, then a caption that stops at the end of the line. -/
lemma tryCaption_pos (kw ws1 d1 d2 ws2 : List Char) (sep tc : Char) (t' u : List Char)
    (hws1ne : ws1 ≠ []) (hws1 : ∀ c ∈ ws1, isSpaceC c = true)
    (hd1ne : d1 ≠ []) (hd1 : ∀ c ∈ d1, isDigitC c = true)
    (hd2 : ∀ c ∈ d2, isDigitC c = true)
    (hsep : sep = '.' ∨ sep = ':')
    (hws2 : ∀ c ∈ ws2, isSpaceC c = true)
    (htc : isSpaceC tc = false) (hnl : ∀ c ∈ tc :: t', (c == '\n') = false)
    (hu : u = [] ∨ ∃ u', u = '\n' :: u') :
    tryCaption kw (kw ++ (ws1 ++ (d1 ++ ('.' :: (d2 ++ (sep :: (ws2 ++ (tc :: (t' ++ u)))))))))
      = some (d1 ++ '.' :: d2, tc :: t', u) := by
  obtain ⟨d1h, d1t, hd1eq⟩ := List.exists_cons_of_ne_nil hd1ne
  have hd1h : isDigitC d1h = true := hd1 d1h (by rw [hd1eq]; exact List.mem_cons_self _ _)
  have hsepd : isDigitC sep = false := by rcases hsep with h | h <;> (subst h; decide)
  set Z2 : List Char := d2 ++ (sep :: (ws2 ++ (tc :: (t' ++ u)))) with hZ2
  set R : List Char := ws1 ++ (d1 ++ ('.' :: Z2)) with hR
  have htw : R.takeWhile isSpaceC = ws1 := by
    rw [hR, hd1eq, List.cons_append]
    exact takeWhile_append_not _ hws1 (not_space_of_digit hd1h)
  have hdw : R.dropWhile isSpaceC = d1 ++ ('.' :: Z2) := by
    rw [hR, hd1eq, List.cons_append]
    rw [dropWhile_append_not _ hws1 (not_space_of_digit hd1h)]
  have htd : (d1 ++ ('.' :: Z2)).takeWhile isDigitC = d1 :=
    takeWhile_append_not _ hd1 (by decide)
  have hdd : (d1 ++ ('.' :: Z2)).drop d1.length = '.' :: Z2 := List.drop_left d1 _
  have htd2 : Z2.takeWhile isDigitC = d2 := by
    rw [hZ2]
    exact takeWhile_append_not _ hd2 hsepd
  have hdd2 : Z2.drop d2.length = sep :: (ws2 ++ (tc :: (t' ++ u))) := by
    rw [hZ2]; exact List.drop_left d2 _
  have hts : titleAfterSpaces 0 (ws2 ++ (tc :: (t' ++ u))) = some (tc :: t', u) :=
    titleAfterSpaces_spec 0 ws2 tc t' u (Nat.zero_le _) hws2 htc hnl hu
  have hlen1 : ¬(ws1.length = 0) := by
    intro hc
    exact hws1ne (List.eq_nil_of_length_eq_zero hc)
  have hlen2 : ¬(d1.length = 0) := by rw [hd1eq]; simp
  simp only [tryCaption, beginsWith_append_self, List.drop_left, htw, hdw, htd, hdd,
    htd2, hdd2, hts, if_pos hsep, if_neg hlen1, if_neg hlen2, if_true]

/-- The chapter pattern succeeds on a well-shaped heading: the keyword in
either spelling, a whitespace run, a digit or roman-numeral group, a dot
or colon, an optional whitespace run, then a nonempty newline-free title
starting with a non-space character. -/
lemma chapterMatch_pos (kw ws1 num : List Char) (sep : Char) (ws2 : List Char)
    (tc : Char) (t' : List Char)
    (hkw : kw = "Chapter".toList ∨ kw = "CHAPTER".toList)
    (hws1ne : ws1 ≠ []) (hws1 : ∀ c ∈ ws1, isSpaceC c = true)
    (hnumne : num ≠ [])
    (hnum : (∀ c ∈ num, isDigitC c = true) ∨ (∀ c ∈ num, isRomanC c = true))
    (hsep : sep = '.' ∨ sep = ':')
    (hws2 : ∀ c ∈ ws2, isSpaceC c = true)
    (htc : isSpaceC tc = false) (hnl : ∀ c ∈ tc :: t', (c == '\n') = false) :
    chapterMatch (kw ++ (ws1 ++ (num ++ (sep :: (ws2 ++ (tc :: t'))))))
      = some (num, tc :: t') := by
  obtain ⟨nh, nt, hneq⟩ := List.exists_cons_of_ne_nil hnumne
  have hnh : isSpaceC nh = false := by
    rcases hnum with h | h
    · exact not_space_of_digit (h nh (by rw [hneq]; exact List.mem_cons_self _ _))
    · exact not_space_of_roman (h nh (by rw [hneq]; exact List.mem_cons_self _ _))
  have hsepd : isDigitC sep = false := by rcases hsep with h | h <;> (subst h; decide)
  have hsepr : isRomanC sep = false := by rcases hsep with h | h <;> (subst h; decide)
  have hlen1 : ¬(ws1.length = 0) := by
    intro hc; exact hws1ne (List.eq_nil_of_length_eq_zero hc)
  have hlennum : num.length ≠ 0 := by rw [hneq]; simp
  set Z : List Char := sep :: (ws2 ++ (tc :: t')) with hZ
  set R : List Char := ws1 ++ (num ++ Z) with hR
  have htw : R.takeWhile isSpaceC = ws1 := by
    rw [hR, hneq, List.cons_append]
    exact takeWhile_append_not _ hws1 hnh
  have hdw : R.dropWhile isSpaceC = num ++ Z := by
    rw [hR, hneq, List.cons_append]
    rw [dropWhile_append_not _ hws1 hnh]
  have hdropnum : (num ++ Z).drop num.length = Z := List.drop_left num Z
  have hts : titleAfterSpaces 0 (ws2 ++ (tc :: t')) = some (tc :: t', []) := by
    have := titleAfterSpaces_spec 0 ws2 tc t' [] (Nat.zero_le _) hws2 htc hnl (Or.inl rfl)
    simpa using this
  have hnum2 : (num ++ Z).takeWhile isDigitC = num ∨
      ((num ++ Z).takeWhile isDigitC = [] ∧ (num ++ Z).takeWhile isRomanC = num) := by
    rcases hnum with h | h
    · left
      rw [hZ]
      exact takeWhile_append_not _ h hsepd
    · right
      constructor
      · rw [hneq, List.cons_append, List.takeWhile_cons,
          if_neg (by simp [not_digit_of_roman (h nh (by rw [hneq]; exact List.mem_cons_self _ _))])]
      · rw [hZ]
        exact takeWhile_append_not _ h hsepr
  rcases hkw with hk | hk <;> subst hk
  · have hb1 : beginsWith ("Chapter".toList) ("Chapter".toList ++ R) = true :=
      beginsWith_append_self _ _
    have hdrop : ("Chapter".toList ++ R).drop 7 = R := by
      rw [show (7 : Nat) = ("Chapter".toList : List Char).length from rfl]
      exact List.drop_left _ _
    rcases hnum2 with hn | ⟨hn0, hnr⟩
    · simp only [chapterMatch, hb1, if_true, hdrop, htw, if_neg hlen1, hdw, hn,
        if_pos hlennum, hdropnum, hZ, if_pos hsep, hts]
    · simp only [chapterMatch, hb1, if_true, hdrop, htw, if_neg hlen1, hdw, hn0, hnr,
        List.length_nil, ne_eq, not_true_eq_false, if_false, if_pos hlennum,
        hdropnum, hZ, if_pos hsep, hts]
  · have hb1 : beginsWith ("Chapter".toList) ("CHAPTER".toList ++ R) = false := rfl
    have hb2 : beginsWith ("CHAPTER".toList) ("CHAPTER".toList ++ R) = true :=
      beginsWith_append_self _ _
    have hdrop : ("CHAPTER".toList ++ R).drop 7 = R := by
      rw [show (7 : Nat) = ("CHAPTER".toList : List Char).length from rfl]
      exact List.drop_left _ _
    rcases hnum2 with hn | ⟨hn0, hnr⟩
    · simp only [chapterMatch, hb1, hb2, if_true, if_false, Bool.false_eq_true, hdrop,
        htw, if_neg hlen1, hdw, hn, if_pos hlennum, hdropnum, hZ, if_pos hsep, hts]
    · simp only [chapterMatch, hb1, hb2, if_true, if_false, Bool.false_eq_true, hdrop,
        htw, if_neg hlen1, hdw, hn0, hnr, List.length_nil, ne_eq, not_true_eq_false,
        if_pos hlennum, hdropnum, hZ, if_pos hsep, hts]

/-- The section records contributed by a list of lines, in order. -/
def secRecs (p : Nat) (lines : List (List Char)) : List SectionRec :=
  lines.foldr (fun l acc => lineSecs p l ++ acc) []

lemma secRecs_cons (p : Nat) (l : List Char) (ls : List (List Char)) :
    secRecs p (l :: ls) = lineSecs p l ++ secRecs p ls := rfl

/-- Effect of one line on the state when the line is a chapter heading. -/
lemma processLine_chap {st : MapperState} {p : Nat} {l num title : List Char}
    (h : chapterMatch l = some (num, title)) :
    processLine st p l =
      { st with
        finished := st.finished ++ st.current.toList,
        current := some ⟨String.mk num, String.mk (pyStrip title), p, []⟩ } := by
  unfold processLine
  rw [h]

/-- Effect of one line on the chapter bookkeeping when the line is not a
chapter heading: the finished chapters are untouched, the current chapter
receives exactly the line's section records, and so does the global
section list. -/
lemma processLine_nonChap {st : MapperState} {p : Nat} {l : List Char}
    (h : chapterMatch l = none) :
    (processLine st p l).finished = st.finished
    ∧ (processLine st p l).current
        = st.current.map (fun ch => { ch with sections := ch.sections ++ lineSecs p l })
    ∧ (processLine st p l).sections = st.sections ++ lineSecs p l := by
  unfold processLine lineSecs
  rw [h]
  cases hs : sectionMatch l with
  | some pr =>
    obtain ⟨num, title⟩ := pr
    dsimp only
    exact ⟨rfl, rfl, rfl⟩
  | none =>
    dsimp only
    have hcur : st.current.map
        (fun ch => { ch with sections := ch.sections ++ ([] : List SectionRec) }) = st.current := by
      cases st.current with
      | none => rfl
      | some c => cases c; simp
    by_cases hr : refMatch l
    · simp [hr, hcur]
    · cases ha : appendixMatch l with
      | some pr =>
        obtain ⟨c, title⟩ := pr
        simp [hr, hcur]
      | none =>
        simp [hr, hcur]

/-- No line touches the figure, table or equation lists. -/
lemma processLine_scans (st : MapperState) (p : Nat) (l : List Char) :
    (processLine st p l).figures = st.figures
    ∧ (processLine st p l).tables = st.tables
    ∧ (processLine st p l).equations = st.equations := by
  unfold processLine
  repeat' split
  all_goals simp

/-- A line that is not an exact reference or bibliography heading leaves
the reference list untouched. -/
lemma processLine_refs {st : MapperState} {p : Nat} {l : List Char}
    (h : refMatch l = false) :
    (processLine st p l).references = st.references := by
  unfold processLine
  repeat' split
  all_goals simp_all

lemma runLines_cons (st : MapperState) (p : Nat) (l : List Char) (ls : List (List Char)) :
    runLines st p (l :: ls) = runLines (processLine st p l) p ls := rfl

/-- The line loop over lines none of which is a chapter heading: finished
chapters unchanged, the current chapter and the global list receive
exactly the section records of the lines. -/
lemma runLines_noChap (p : Nat) : ∀ (lines : List (List Char)) (st : MapperState),
    (∀ l ∈ lines, chapterMatch l = none) →
    (runLines st p lines).finished = st.finished
    ∧ (runLines st p lines).current
        = st.current.map (fun ch => { ch with sections := ch.sections ++ secRecs p lines })
    ∧ (runLines st p lines).sections = st.sections ++ secRecs p lines := by
  intro lines
  induction lines with
  | nil =>
    intro st _
    refine ⟨rfl, ?_, by simp [runLines, secRecs]⟩
    show st.current = st.current.map
      (fun ch => { ch with sections := ch.sections ++ secRecs p [] })
    cases st.current with
    | none => rfl
    | some c => cases c; simp [secRecs]
  | cons l ls ih =>
    intro st h
    have h0 : chapterMatch l = none := h l (List.mem_cons_self _ _)
    have hstep := @processLine_nonChap st p l h0
    have hrec := ih (processLine st p l) (fun x hx => h x (List.mem_cons_of_mem _ hx))
    rw [runLines_cons]
    refine ⟨hrec.1.trans hstep.1, ?_, ?_⟩
    · rw [hrec.2.1, hstep.2.1, secRecs_cons]
      cases st.current with
      | none => rfl
      | some c => simp [List.append_assoc]
    · rw [hrec.2.2, hstep.2.2, secRecs_cons, List.append_assoc]

/-- The line loop never touches the figure list. -/
lemma runLines_figures (p : Nat) : ∀ (lines : List (List Char)) (st : MapperState),
    (runLines st p lines).figures = st.figures := by
  intro lines
  induction lines with
  | nil => intro st; rfl
  | cons l ls ih =>
    intro st
    rw [runLines_cons, ih, (processLine_scans st p l).1]

/-- Every record a page contributes carries that page index and a chapter
number that passed the range filter. -/
lemma pageRecs_mem {t : String} {i : Nat} {ws : List Word} {r : LocRec}
    (h : r ∈ pageRecs t i ws) : r.page = i ∧ 1 ≤ r.num ∧ r.num ≤ 25 := by
  unfold pageRecs at h
  rw [List.mem_filterMap] at h
  obtain ⟨sd, _, hf⟩ := h
  dsimp only at hf
  split at hf
  · rename_i hcond
    rw [Option.some.injEq] at hf
    rw [← hf]
    exact ⟨rfl, hcond.1, hcond.2⟩
  · exact absurd hf (by simp)

lemma mem_insertByNum {a x : LocRec} : ∀ {l : List LocRec},
    x ∈ insertByNum a l ↔ x = a ∨ x ∈ l := by
  intro l
  induction l with
  | nil => simp [insertByNum]
  | cons b bl ih =>
    simp only [insertByNum]
    by_cases hba : b.num ≤ a.num
    · rw [if_pos hba]
      simp only [List.mem_cons, ih]
      tauto
    · rw [if_neg hba]
      simp only [List.mem_cons]

/-- The ordering property an output of the stable sort keeps: two records
with equal chapter numbers stay in nondecreasing page order. -/
def pageStable (a b : LocRec) : Prop := a.num = b.num → a.page ≤ b.page

def numLe (a b : LocRec) : Prop := a.num ≤ b.num

lemma insertByNum_pairwise {a : LocRec} : ∀ {l : List LocRec},
    l.Pairwise pageStable → l.Pairwise numLe →
    (∀ b ∈ l, b.num = a.num → b.page ≤ a.page) →
    (insertByNum a l).Pairwise pageStable ∧ (insertByNum a l).Pairwise numLe := by
  intro l
  induction l with
  | nil => intro _ _ _; constructor <;> simp [insertByNum, List.pairwise_singleton]
  | cons b bl ih =>
    intro h1 h2 h3
    rw [List.pairwise_cons] at h1 h2
    simp only [insertByNum]
    by_cases hba : b.num ≤ a.num
    · rw [if_pos hba]
      have hrec := ih h1.2 h2.2
        (fun c hc hceq => h3 c (List.mem_cons_of_mem _ hc) hceq)
      constructor
      · rw [List.pairwise_cons]
        refine ⟨?_, hrec.1⟩
        intro x hx
        rcases mem_insertByNum.mp hx with hxa | hxl
        · subst hxa
          intro hnum
          exact h3 b (List.mem_cons_self _ _) hnum
        · exact h1.1 x hxl
      · rw [List.pairwise_cons]
        refine ⟨?_, hrec.2⟩
        intro x hx
        rcases mem_insertByNum.mp hx with hxa | hxl
        · subst hxa; exact hba
        · exact h2.1 x hxl
    · rw [if_neg hba]
      have hab : a.num < b.num := Nat.lt_of_not_le hba
      constructor
      · rw [List.pairwise_cons]
        refine ⟨?_, List.Pairwise.cons h1.1 h1.2⟩
        intro x hx
        rcases List.mem_cons.mp hx with hxb | hxl
        · subst hxb
          intro hnum
          omega
        · intro hnum
          have := h2.1 x hxl
          unfold numLe at this
          omega
      · rw [List.pairwise_cons]
        refine ⟨?_, List.Pairwise.cons h2.1 h2.2⟩
        intro x hx
        rcases List.mem_cons.mp hx with hxb | hxl
        · subst hxb; exact Nat.le_of_lt hab
        · have := h2.1 x hxl
          unfold numLe at this ⊢
          omega

lemma foldl_insert_pairwise : ∀ (l acc : List LocRec),
    acc.Pairwise pageStable → acc.Pairwise numLe →
    (∀ x ∈ acc, ∀ c ∈ l, x.page ≤ c.page) →
    l.Pairwise (fun x c => x.page ≤ c.page) →
    (l.foldl (fun ac a => insertByNum a ac) acc).Pairwise pageStable := by
  intro l
  induction l with
  | nil => intro acc h1 _ _ _; exact h1
  | cons a al ih =>
    intro acc h1 h2 hcross hl
    rw [List.pairwise_cons] at hl
    rw [List.foldl_cons]
    have hins := insertByNum_pairwise h1 h2
      (fun b hb _ => hcross b hb a (List.mem_cons_self _ _))
    refine ih (insertByNum a acc) hins.1 hins.2 ?_ hl.2
    intro x hx c hc
    rcases mem_insertByNum.mp hx with hxa | hxl
    · subst hxa; exact hl.1 c hc
    · exact hcross x hxl c (List.mem_cons_of_mem _ hc)

/-- The page loop emits records in nondecreasing page order, each tagged
with a page index at least the starting index. -/
lemma collectPages_ok : ∀ (ps : List LocPage) (i : Nat) (res : List LocRec),
    collectPages ps i = .ok res →
    (∀ r ∈ res, i ≤ r.page) ∧ res.Pairwise (fun x c => x.page ≤ c.page) := by
  intro ps
  induction ps with
  | nil =>
    intro i res h
    simp only [collectPages, Except.ok.injEq] at h
    subst h
    simp
  | cons p pl ih =>
    intro i res h
    simp only [collectPages] at h
    cases hx : p.text with
    | none => rw [hx] at h; exact absurd h (by simp)
    | some t =>
      rw [hx] at h
      cases hc : collectPages pl (i + 1) with
      | error e => rw [hc] at h; exact absurd h (by simp)
      | ok rest =>
        rw [hc] at h
        rw [Except.ok.injEq] at h
        subst h
        obtain ⟨hlo, hpw⟩ := ih (i + 1) rest hc
        constructor
        · intro r hr
          rcases List.mem_append.mp hr with hr | hr
          · rw [(pageRecs_mem hr).1]
          · exact Nat.le_of_succ_le (hlo r hr)
        · rw [List.pairwise_append]
          refine ⟨?_, hpw, ?_⟩
          · refine List.pairwise_of_forall_mem_list ?_
            intro x hx c hc'
            rw [(pageRecs_mem hx).1, (pageRecs_mem hc').1]
          · intro x hx c hc'
            rw [(pageRecs_mem hx).1]
            exact Nat.le_of_succ_le (hlo c hc')

/-! Claim theorems. -/

/-- C1: the specification expects a line carrying a dotted numeric
sequence of one or more digit groups, such as 2.3.1, to yield a Section
record with that number and level equal to the group count minus one.
The source regex instead demands exactly one dot followed by an optional
digit run, so the line 2.3.1 Write-Ahead Logs produces no record at all,
while 2.3 Write-Ahead Logs produces one with level one.  This theorem
evaluates the classifier at both inputs. -/
theorem claim1_code_eval :
    processLine initState 1 ("2.3.1 Write-Ahead Logs".toList) = initState
    ∧ (processLine initState 1 ("2.3 Write-Ahead Logs".toList)).sections
        = [⟨"2.3", "Write-Ahead Logs", 1, 1⟩] := by
  constructor
  · decide
  · decide

/-- C2 (amended): in the classifier path a page whose extraction yields
no string, or an empty one, contributes nothing and cannot raise; in the
locator path an empty page text contributes nothing, but a missing text
raises, which the separate counterexample shows. -/
theorem claim2_amended :
    (∀ (st : MapperState) (n : Nat) (t : Option String),
        t = none ∨ t = some "" → analyzeStep st n t = st)
    ∧ (∀ (p : Nat) (ws : List Word), pageRecs "" p ws = []) := by
  constructor
  · rintro st n t (rfl | rfl)
    · rfl
    · simp [analyzeStep]
  · intro p ws; rfl

/-- C2 counterexample: in the locator path a page whose text extraction
yields nothing makes the scan raise a TypeError instead of contributing
an empty result. -/
theorem claim2_cex : findChapters [⟨none, []⟩] = .error .typeError := rfl

theorem claim2_witness : analyzeStep initState 1 none = initState :=
  claim2_amended.1 initState 1 none (Or.inl rfl)

/-- C3 (amended): the locator pattern accepts one or more digits, not one
or two; every emitted record has a chapter number between one and
twenty-five, a page of Chapter 123 colon space yields nothing because 123
fails the range filter, and a page of Chapter 007 colon space yields a
record with chapter number seven. -/
theorem claim3_amended :
    (∀ (t : String) (p : Nat) (ws : List Word) (r : LocRec),
        r ∈ pageRecs t p ws → 1 ≤ r.num ∧ r.num ≤ 25)
    ∧ pageRecs "Chapter 123: " 0 [] = []
    ∧ pageRecs "Chapter 007: x" 0 []
        = [⟨7, 0, none, "Chapter 007: x", "Chapter 007: "⟩] := by
  refine ⟨?_, by decide, by decide⟩
  intro t p ws r h
  exact (pageRecs_mem h).2

/-- C3 counterexample: the claim says Chapter 007 yields no record; the
code emits one with chapter number seven. -/
theorem claim3_cex :
    pageRecs "Chapter 007: x" 0 [] ≠ [] := by decide

theorem claim3_witness :
    1 ≤ (⟨7, 0, none, "Chapter 007: x", "Chapter 007: "⟩ : LocRec).num
    ∧ (⟨7, 0, none, "Chapter 007: x", "Chapter 007: "⟩ : LocRec).num ≤ 25 :=
  claim3_amended.1 "Chapter 007: x" 0 [] _ (by decide)

/-- C9: the classifier is a pure function of its page sequence; two runs
from fresh instances, that is from the initial mapper state, produce
identical book maps. -/
theorem claim9_thm (st1 st2 : MapperState) (pages : List (Option String))
    (h1 : st1 = initState) (h2 : st2 = initState) :
    generateBookMap (runPages st1 1 pages) = generateBookMap (runPages st2 1 pages) := by
  subst h1
  subst h2
  rfl

theorem claim9_witness :
    generateBookMap (runPages initState 1 [some "Chapter 1: a"])
      = generateBookMap (runPages initState 1 [some "Chapter 1: a"]) :=
  claim9_thm initState initState [some "Chapter 1: a"] rfl rfl

/-- C4: the line Chapter 3. Storage Engines yields a Chapter record with
number 3 and title Storage Engines; every section line scanned after it,
up to the next chapter line, is attached to that record; and sections
scanned before any chapter go to the global list with no parent. -/
theorem claim4_thm :
    (∀ (st : MapperState) (p : Nat),
        chaptersOf (processLine st p ("Chapter 3. Storage Engines".toList))
          = chaptersOf st ++ [⟨"3", "Storage Engines", p, []⟩])
    ∧ (∀ (st : MapperState) (p : Nat) (post : List (List Char)),
        (∀ l ∈ post, chapterMatch l = none) →
        chaptersOf (runLines st p ("Chapter 3. Storage Engines".toList :: post))
            = chaptersOf st ++ [⟨"3", "Storage Engines", p, secRecs p post⟩]
          ∧ (runLines st p ("Chapter 3. Storage Engines".toList :: post)).sections
            = st.sections ++ secRecs p post)
    ∧ (∀ (p : Nat) (pre : List (List Char)),
        (∀ l ∈ pre, chapterMatch l = none) →
        (runLines initState p pre).sections = secRecs p pre
          ∧ chaptersOf (runLines initState p pre) = []) := by
  have hcm : chapterMatch ("Chapter 3. Storage Engines".toList)
      = some ("3".toList, "Storage Engines".toList) := by decide
  have hstep : ∀ (st : MapperState) (p : Nat),
      processLine st p ("Chapter 3. Storage Engines".toList)
        = { st with
            finished := st.finished ++ st.current.toList,
            current := some ⟨"3", "Storage Engines", p, []⟩ } := by
    intro st p
    exact processLine_chap hcm
  refine ⟨?_, ?_, ?_⟩
  · intro st p
    rw [hstep]
    simp [chaptersOf, Option.toList]
  · intro st p post hpost
    rw [runLines_cons, hstep]
    obtain ⟨hf, hc, hs⟩ := runLines_noChap p post _ hpost
    constructor
    · unfold chaptersOf
      rw [hf, hc]
      simp [chaptersOf, Option.toList, List.append_assoc]
    · exact hs
  · intro p pre hpre
    obtain ⟨hf, hc, hs⟩ := runLines_noChap p pre initState hpre
    constructor
    · simpa using hs
    · unfold chaptersOf
      rw [hf, hc]
      rfl

theorem claim4_witness :
    chaptersOf (runLines initState 1
        ["Chapter 3. Storage Engines".toList, "2.3 Write-Ahead Logs".toList])
      = [⟨"3", "Storage Engines", 1, [⟨"2.3", "Write-Ahead Logs", 1, 1⟩]⟩] := by
  have h := (claim4_thm.2.1 initState 1 ["2.3 Write-Ahead Logs".toList] (by decide)).1
  exact h.trans (by decide)

lemma refMatch_head {l : List Char} (h : refMatch l = true) :
    ∃ c0 rest, l = c0 :: rest ∧ (lowerAscii c0 = 'r' ∨ lowerAscii c0 = 'b') := by
  cases l with
  | nil => exact absurd h (by decide)
  | cons c0 rest =>
    refine ⟨c0, rest, rfl, ?_⟩
    unfold refMatch at h
    rw [Bool.or_eq_true] at h
    rcases h with h | h
    · left
      rw [show ("References".toList : List Char) = 'R' :: "eferences".toList from rfl] at h
      simp only [ciEqList, Bool.and_eq_true, beq_iff_eq] at h
      exact h.1.trans (by decide)
    · right
      rw [show ("Bibliography".toList : List Char) = 'B' :: "ibliography".toList from rfl] at h
      simp only [ciEqList, Bool.and_eq_true, beq_iff_eq] at h
      exact h.1.trans (by decide)

lemma not_chapter_of_ref {l : List Char} (h : refMatch l = true) :
    chapterMatch l = none := by
  obtain ⟨c0, rest, rfl, hc0⟩ := refMatch_head h
  have hC : ('C' == c0) = false := by
    by_cases hce : c0 = 'C'
    · subst hce; rcases hc0 with h' | h' <;> exact absurd h' (by decide)
    · exact beq_eq_false_iff_ne.mpr (fun he => hce he.symm)
  have h1 : beginsWith ['C', 'h', 'a', 'p', 't', 'e', 'r'] (c0 :: rest) = false := by
    simp [beginsWith, hC]
  have h2 : beginsWith ['C', 'H', 'A', 'P', 'T', 'E', 'R'] (c0 :: rest) = false := by
    simp [beginsWith, hC]
  simp [chapterMatch, h1, h2]

lemma lowerAscii_of_digit {c : Char} (h : isDigitC c = true) : lowerAscii c = c := by
  simp only [isDigitC, Bool.and_eq_true, decide_eq_true_eq] at h
  simp only [lowerAscii]
  rw [if_neg]
  simp only [Bool.and_eq_true, decide_eq_true_eq, not_and]
  omega

lemma not_section_of_ref {l : List Char} (h : refMatch l = true) :
    sectionMatch l = none := by
  obtain ⟨c0, rest, rfl, hc0⟩ := refMatch_head h
  have hd : isDigitC c0 = false := by
    by_cases hdc : isDigitC c0 = true
    · exfalso
      have hlow := lowerAscii_of_digit hdc
      rcases hc0 with h' | h' <;>
        (rw [hlow] at h'; subst h'; exact absurd hdc (by decide))
    · exact Bool.eq_false_iff.mpr hdc
  simp [sectionMatch, List.takeWhile_cons, hd]

lemma not_appendix_of_ref {l : List Char} (h : refMatch l = true) :
    appendixMatch l = none := by
  obtain ⟨c0, rest, rfl, hc0⟩ := refMatch_head h
  have hA : ('A' == c0) = false := by
    by_cases hce : c0 = 'A'
    · subst hce; rcases hc0 with h' | h' <;> exact absurd h' (by decide)
    · exact beq_eq_false_iff_ne.mpr (fun he => hce he.symm)
  have h1 : beginsWith ['A', 'p', 'p', 'e', 'n', 'd', 'i', 'x'] (c0 :: rest) = false := by
    simp [beginsWith, hA]
  simp [appendixMatch, h1]

/-- C6: a line that is, case-insensitively, exactly References or
Bibliography yields exactly one ReferenceHeading record with the page
number and the stripped line as title; any other line leaves the
reference list untouched, in particular See References below. -/
theorem claim6_thm (st : MapperState) (p : Nat) (l : List Char) :
    (refMatch l = true →
        processLine st p l
          = { st with references := st.references ++ [⟨String.mk (pyStrip l), p⟩] })
    ∧ (refMatch l = false → (processLine st p l).references = st.references)
    ∧ refMatch ("See References below".toList) = false := by
  refine ⟨?_, ?_, by decide⟩
  · intro h
    unfold processLine
    rw [not_chapter_of_ref h, not_section_of_ref h]
    simp [h]
  · intro h
    exact processLine_refs h

theorem claim6_witness :
    processLine initState 2 ("REFERENCES".toList)
      = { initState with references := [⟨"REFERENCES", 2⟩] } := by
  have h := (claim6_thm initState 2 ("REFERENCES".toList)).1 (by decide)
  exact h.trans (by decide)

/-- The concrete found-chapter sample of the specification: chapters one,
two, four and five. -/
def locSample : List LocRec :=
  [⟨1, 0, none, "", ""⟩, ⟨2, 0, none, "", ""⟩, ⟨4, 1, none, "", ""⟩, ⟨5, 2, none, "", ""⟩]

/-- C7: for a nonempty set of found chapter numbers, the missing-chapters
diagnostic is the strictly sorted list whose members are exactly the
numbers from one to the maximum found number that were not found; in
particular found chapters one, two, four, five give the list with the
single entry three. -/
theorem claim7_thm (results : List LocRec) (h : (foundChapters results).Nonempty) :
    (missingChapters results).Sorted (· < ·)
    ∧ (∀ n : ℕ, n ∈ missingChapters results
        ↔ 1 ≤ n ∧ n ≤ (foundChapters results).max' h ∧ n ∉ foundChapters results)
    ∧ missingChapters locSample = [3] := by
  have hone : missingChapters locSample = [3] := by
    have hne : (foundChapters locSample).Nonempty := by decide
    unfold missingChapters
    rw [dif_pos hne]
    have h5 : (foundChapters locSample).max' hne = 5 := by
      apply le_antisymm
      · exact Finset.max'_le _ _ _ (by decide)
      · exact Finset.le_max' _ _ (by decide)
    rw [h5]
    have h35 : Finset.Icc 1 5 \ foundChapters locSample = {3} := by decide
    rw [h35, Finset.sort_singleton]
  refine ⟨?_, ?_, hone⟩
  · unfold missingChapters
    rw [dif_pos h]
    exact Finset.sort_sorted_lt _
  · intro n
    unfold missingChapters
    rw [dif_pos h]
    rw [Finset.mem_sort, Finset.mem_sdiff, Finset.mem_Icc]
    tauto

theorem claim7_witness : (missingChapters locSample).Sorted (· < ·) :=
  (claim7_thm locSample (by decide)).1

/-- C8 (amended): a line consisting of Chapter or CHAPTER, whitespace, a
digit or roman-numeral token, a dot or colon, optional whitespace, then a
nonempty newline-free title starting with a non-space character is
classified as a Chapter heading carrying that number and the stripped
title.  The separator need not be followed by whitespace; the separate
counterexample shows Chapter 3 colon Title is classified. -/
theorem claim8_amended (st : MapperState) (p : Nat) (kw ws1 num ws2 : List Char)
    (sep tc : Char) (t' : List Char)
    (hkw : kw = "Chapter".toList ∨ kw = "CHAPTER".toList)
    (hws1ne : ws1 ≠ []) (hws1 : ∀ c ∈ ws1, isSpaceC c = true)
    (hnumne : num ≠ [])
    (hnum : (∀ c ∈ num, isDigitC c = true) ∨ (∀ c ∈ num, isRomanC c = true))
    (hsep : sep = '.' ∨ sep = ':')
    (hws2 : ∀ c ∈ ws2, isSpaceC c = true)
    (htc : isSpaceC tc = false) (hnl : ∀ c ∈ tc :: t', (c == '\n') = false) :
    chaptersOf (processLine st p (kw ++ (ws1 ++ (num ++ (sep :: (ws2 ++ (tc :: t')))))))
      = chaptersOf st
        ++ [⟨String.mk num, String.mk (pyStrip (tc :: t')), p, []⟩] := by
  have hcm := chapterMatch_pos kw ws1 num sep ws2 tc t'
    hkw hws1ne hws1 hnumne hnum hsep hws2 htc hnl
  rw [processLine_chap hcm]
  simp [chaptersOf, Option.toList, List.append_assoc]

/-- C8 counterexample: the claim says that with no whitespace after the
separator no Chapter record is produced; the code produces one, because
the whitespace after the separator is optional in the pattern. -/
theorem claim8_cex :
    chaptersOf (processLine initState 1 ("Chapter 3:Title".toList))
      = [⟨"3", "Title", 1, []⟩] := by decide

theorem claim8_witness :
    chaptersOf (processLine initState 1
        ("CHAPTER".toList ++ ([' '] ++ ("IV".toList ++ (':' :: ([' '] ++ ('T' :: "he Index".toList)))))))
      = chaptersOf initState ++ [⟨String.mk ("IV".toList),
          String.mk (pyStrip ('T' :: "he Index".toList)), 1, []⟩] :=
  claim8_amended initState 1 ("CHAPTER".toList) [' '] ("IV".toList) [' '] ':' 'T'
    ("he Index".toList) (Or.inr rfl) (by decide) (by decide) (by decide)
    (Or.inr (by decide)) (Or.inr rfl) (by decide) (by decide) (by decide)

/-- The figure caption line of the specification's concrete example. -/
def figLine : List Char := "Figure 4.2: Replication topology".toList

/-- C5 (amended): a page text that carries exactly one occurrence of the
keyword Figure, namely the one of the line Figure 4.2: Replication
topology, yields exactly one Figure record with number 4.2 and caption
Replication topology ending at the line end; the result holds for every
incoming mapper state, so it is independent of any line-level heading
matches on the page.  The separate counterexample shows that a page
containing the line twice yields two records, refuting the universal
exactly-one reading. -/
theorem claim5_amended (st : MapperState) (p : Nat) (a b : List Char)
    (ha : ∀ n, n < a.length →
        beginsWith ("Figure".toList) (List.drop n a ++ (figLine ++ b)) = false)
    (hb2 : ∀ n, n < b.length → beginsWith ("Figure".toList) (List.drop n b) = false)
    (hb : b = [] ∨ ∃ b', b = '\n' :: b') :
    (processPage st p (a ++ (figLine ++ b))).figures
      = st.figures ++ [⟨"4.2", "Replication topology", p⟩] := by
  have htry : tryCaption ("Figure".toList) (figLine ++ b)
      = some ("4.2".toList, "Replication topology".toList, b) := by
    have h := tryCaption_pos ("Figure".toList) [' '] ['4'] ['2'] [' '] ':' 'R'
      ("eplication topology".toList) b (by decide) (by decide) (by decide) (by decide)
      (by decide) (Or.inr rfl) (by decide) (by decide) (by decide) hb
    exact h
  have hscan : scanCap ("Figure".toList) (a ++ (figLine ++ b))
      = [("4.2".toList, "Replication topology".toList)] := by
    rw [scanCap_skip ("Figure".toList) a (figLine ++ b) ha]
    have hcons := @scanCap_cons_some ("Figure".toList) 'F'
      ("igure 4.2: Replication topology".toList ++ b) _ _ _ htry
    rw [show (figLine ++ b : List Char)
        = 'F' :: ("igure 4.2: Replication topology".toList ++ b) from rfl]
    rw [hcons, scanCap_none_all ("Figure".toList) b hb2]
  have hfig : detectFigures p (a ++ (figLine ++ b))
      = [⟨"4.2", "Replication topology", p⟩] := by
    unfold detectFigures
    rw [hscan]
    rfl
  show (detectFiguresTables (analyzePageStructure st p (a ++ (figLine ++ b)))
      p (a ++ (figLine ++ b))).figures = _
  unfold detectFiguresTables
  dsimp only
  rw [hfig]
  unfold analyzePageStructure
  rw [runLines_figures]

/-- A page text containing the example figure line twice. -/
def figDupText : List Char := figLine ++ '\n' :: figLine

/-- C5 counterexample: a page text containing the figure caption line
yields two records, not exactly one, when the line occurs twice. -/
theorem claim5_cex :
    containsSeq figLine figDupText = true
    ∧ (processPage initState 1 figDupText).figures
        = [⟨"4.2", "Replication topology", 1⟩, ⟨"4.2", "Replication topology", 1⟩] := by
  constructor
  · decide
  · decide

theorem claim5_witness :
    (processPage initState 1 ("p. 1\n".toList ++ (figLine ++ "\nmore".toList))).figures
      = initState.figures ++ [⟨"4.2", "Replication topology", 1⟩] :=
  claim5_amended initState 1 ("p. 1\n".toList) ("\nmore".toList) (by decide) (by decide)
    (Or.inr ⟨"more".toList, rfl⟩)

/-- C10: in any successful locator result, two records with the same
chapter number appear in nondecreasing page order: the final sort by
chapter number is stable with respect to the page-scan order. -/
theorem claim10_thm (pages : List LocPage) (res : List LocRec)
    (h : findChapters pages = .ok res) : res.Pairwise pageStable := by
  unfold findChapters at h
  cases hc : collectPages pages 0 with
  | error e => rw [hc] at h; exact absurd h (by simp [Except.map])
  | ok res0 =>
    rw [hc] at h
    simp only [Except.map, Except.ok.injEq] at h
    rw [← h]
    obtain ⟨_, hpw⟩ := collectPages_ok pages 0 res0 hc
    unfold stableSortByNum
    exact foldl_insert_pairwise res0 [] (by simp) (by simp) (by simp) hpw

/-- Two pages that both carry the heading of chapter one. -/
def locPagesSample : List LocPage :=
  [⟨some "Chapter 1: a", []⟩, ⟨some "Chapter 1: b", []⟩]

theorem claim10_witness :
    List.Pairwise pageStable
      [⟨1, 0, none, "Chapter 1: a", "Chapter 1: "⟩,
       ⟨1, 1, none, "Chapter 1: b", "Chapter 1: "⟩] :=
  claim10_thm locPagesSample _ (by rfl)

end PdfExtract
